import Mathlib

/-!
Verification of the type-loading and type-reconstruction engine of `resym`
(`src/pdb_file.rs`), shallowly embedded in Lean.

The embedding models:
* the type stream as a list of iterator items (each either a fatal iterator
  error or a record carrying its `TypeIndex` and the outcome of `parse()`);
* `load_symbols` as a fold over the stream, building the complete-type list,
  the complete-symbol name map (`DashMap` insert = last write wins) and the
  pending-forwarder list, followed by a forwarder-resolution pass;
* the renderer `pdb_types::Data::add` (whose source file is not part of the
  embedded sources) as a finite lookup table from `TypeIndex` to rendered
  text plus referenced indices, per the specification of `render`;
* `pdb_types::TypeSet` (`BTreeSet<TypeIndex>`) as a strictly sorted list of
  naturals, so that the `difference(..).last()` idiom of the dependency loop
  is modelled faithfully as "last element of the ascending difference";
* the dependency-closure loop of `reconstruct_type_by_type_index_internal`
  as a fuel-indexed recursion (`none` = fuel exhausted, which the
  termination theorem shows never happens for sufficient fuel).
-/

namespace Resym

/-- Decoded payload common to `pdb::TypeData::Class`, `Union` and
`Enumeration` records: the tag name, the optional unique name and the
forward-reference property bit. -/
structure TagData where
  name : String
  unique_name : Option String
  forward_reference : Bool
deriving DecidableEq, Repr

/-- The decoded payload of one type record (`pdb::TypeData`).  Only the
class/union/enumeration shapes matter to `load_symbols` and
`reconstruct_type_by_name`; every other shape is collapsed into `Other`. -/
inductive TypeData where
  | Class : TagData → TypeData
  | Union : TagData → TypeData
  | Enumeration : TagData → TypeData
  | Other : TypeData
deriving DecidableEq, Repr

/-- One record yielded by the type-stream iterator: its `TypeIndex` and the
outcome of `parse()` (`none` models a per-record decode failure). -/
structure TypeItem where
  index : Nat
  decoded : Option TypeData
deriving DecidableEq, Repr

/-- One step of the type-stream iterator: `fatal` models
`type_info_iter.next()` returning an error (fatal I/O or header failure),
`item` a successfully yielded record. -/
inductive StreamItem where
  | fatal : StreamItem
  | item : TypeItem → StreamItem
deriving DecidableEq, Repr

/-- The class/union/enumeration payload of a stream element, if any:
`none` for fatal steps, records that failed to decode, and records of any
other shape.  This is the filter applied by the `match type_data` in
`load_symbols`. -/
def recOf : StreamItem → Option (Nat × TagData)
  | .fatal => none
  | .item it =>
    match it.decoded with
    | some (.Class d) => some (it.index, d)
    | some (.Union d) => some (it.index, d)
    | some (.Enumeration d) => some (it.index, d)
    | _ => none

/-- A stream with no fatal iterator error. -/
def noFatal (stream : List StreamItem) : Prop := StreamItem.fatal ∉ stream

instance (stream : List StreamItem) : Decidable (noFatal stream) := by
  unfold noFatal; infer_instance

/-- All class/union/enumeration records of the stream, in stream order. -/
def tagRecords (stream : List StreamItem) : List (Nat × TagData) :=
  stream.filterMap recOf

/-- The forward-reference records among `tagRecords`. -/
def fwdRecords (stream : List StreamItem) : List (Nat × TagData) :=
  (tagRecords stream).filter (fun p => p.2.forward_reference)

/-- The complete (non-forward-reference) records among `tagRecords`. -/
def completeRecords (stream : List StreamItem) : List (Nat × TagData) :=
  (tagRecords stream).filter (fun p => !p.2.forward_reference)

/-- Modelled from the spec: `pdb_types::is_unnamed_type` (its source file is
not among the embedded sources).  Per §4.1/§9 of the specification it
recognises names that denote an anonymous tag, which the MSVC toolchain
decodes to bracketed placeholder names. -/
def is_unnamed_type (name : String) : Bool :=
  name = "<unnamed-tag>" || name = "<anonymous-tag>"

/-- The display name a complete record gets in `complete_type_list`:
anonymous tags are renamed to the synthetic `"_unnamed_<index>"` label. -/
def displayName (name : String) (type_index : Nat) : String :=
  if is_unnamed_type name then "_unnamed_" ++ toString type_index else name

/-- `DashMap<String, TypeIndex>` insertion, modelled chronologically: the
binding is appended, and `mapGet` takes the most recent binding. -/
def mapInsert (m : List (String × Nat)) (k : String) (v : Nat) :
    List (String × Nat) :=
  m ++ [(k, v)]

/-- `DashMap<String, TypeIndex>` lookup: the most recently inserted binding
for the key, if any. -/
def mapGet (m : List (String × Nat)) (k : String) : Option Nat :=
  (m.reverse.find? (fun p => p.1 == k)).map (fun p => p.2)

/-- The mutable state of the single loading pass of `load_symbols`. -/
structure LoadState where
  complete_symbol_map : List (String × Nat)
  forwarders : List (String × Nat)
  complete_type_list : List (String × Nat)
deriving DecidableEq, Repr

/-- The shared body of the `Class`/`Union`/`Enumeration` arms of
`load_symbols`: forward references are stashed into the pending-forwarder
list; complete records are registered in the name map under their raw name
and appended to the complete-type list under their display name. -/
def handleTag (st : LoadState) (type_index : Nat) (d : TagData) : LoadState :=
  if d.forward_reference then
    { st with forwarders := st.forwarders ++ [(d.name, type_index)] }
  else
    { st with
        complete_symbol_map := mapInsert st.complete_symbol_map d.name type_index
        complete_type_list :=
          st.complete_type_list ++ [(displayName d.name type_index, type_index)] }

/-- One iteration of the `while let` loop of `load_symbols`: records whose
`parse()` failed and records of other shapes leave the state unchanged. -/
def processItem (st : LoadState) (it : TypeItem) : LoadState :=
  match recOf (.item it) with
  | none => st
  | some (type_index, d) => handleTag st type_index d

/-- The single loading pass of `load_symbols`: a fatal iterator error aborts
the whole load (the `?` on `type_info_iter.next()`), everything else folds
through `processItem`. -/
def loadPass : List StreamItem → LoadState → Except String LoadState
  | [], st => .ok st
  | .fatal :: _, _ => .error "io error"
  | .item it :: rest, st => loadPass rest (processItem st it)

/-- The forwarder-resolution pass of `load_symbols`: each pending forwarder
whose raw name resolves in the complete-symbol map contributes an entry to
`forwarder_to_complete_type`; unmatched forwarders are logged and omitted. -/
def resolveForwarders (csm : List (String × Nat))
    (fwds : List (String × Nat)) : List (Nat × Nat) :=
  fwds.foldl
    (fun acc p =>
      match mapGet csm p.1 with
      | some complete_type_index => acc ++ [(p.2, complete_type_index)]
      | none => acc)
    []

/-- The part of `PdbFile` that `load_symbols` populates. -/
structure LoadedFile where
  complete_type_list : List (String × Nat)
  forwarder_to_complete_type : List (Nat × Nat)
deriving DecidableEq, Repr

/-- `load_symbols`: the single pass over the stream followed by the
forwarder-resolution pass. -/
def load_symbols (stream : List StreamItem) : Except String LoadedFile :=
  (loadPass stream ⟨[], [], []⟩).map
    (fun st =>
      ⟨st.complete_type_list,
        resolveForwarders st.complete_symbol_map st.forwarders⟩)

/-! ## The renderer and the type set -/

/-- Modelled from the spec: the output of one `render` call of the Type
Renderer (`pdb_types::Data::add`, whose source file is not among the
embedded sources): the emitted source text and the list of type indices the
text's tag-specific fields reference. -/
structure RenderEntry where
  text : String
  refs : List Nat
deriving DecidableEq, Repr

/-- Modelled from the spec: the Type Renderer as a finite lookup table from
`TypeIndex` to its rendered form.  `render` fails (returns `none`) exactly
when the index cannot be resolved to any record at all. -/
def RenderMap : Type := List (Nat × RenderEntry)

/-- Modelled from the spec: `render(index) -> (text, referenced_indices)`;
`none` is the `RenderError` case for an unresolvable index. -/
def render (rm : RenderMap) (type_index : Nat) : Option RenderEntry :=
  ((rm : List (Nat × RenderEntry)).find? (fun p => p.1 == type_index)).map
    (fun p => p.2)

/-- `pdb_types::TypeSet = BTreeSet<TypeIndex>` insertion: ordered insert
into a strictly ascending list. -/
def tsInsert : List Nat → Nat → List Nat
  | [], x => [x]
  | y :: rest, x =>
    if x < y then x :: y :: rest
    else if x = y then y :: rest
    else y :: tsInsert rest x

/-- Merging a batch of referenced indices into a `TypeSet` (the effect of
`Data::add` on its `needed_types` argument). -/
def tsMerge (s : List Nat) (xs : List Nat) : List Nat :=
  xs.foldl tsInsert s

/-- `BTreeSet::difference`: the elements of `s` not in `t`, in ascending
order (the iterator order of `BTreeSet`). -/
def tsDiff (s t : List Nat) : List Nat :=
  s.filter (fun x => !(t.contains x))

/-- `pdb_types::Data::add`: renders `type_index`, appends the text to the
accumulating buffer and merges the referenced indices into `needed_types`;
fails with a render error when the index resolves to no record. -/
def dataAdd (rm : RenderMap) (buf : String) (type_index : Nat)
    (needed_types : List Nat) : Except String (String × List Nat) :=
  match render rm type_index with
  | none => .error "render error"
  | some e => .ok (buf ++ e.text, tsMerge needed_types e.refs)

/-! ## The dependency-closure loop -/

/-- The result of the dependency loop: the dependency buffer, the sequence
of dependency indices in the order they were rendered, and the final
`needed_types` and `processed_types` sets. -/
structure LoopResult where
  buf : String
  order : List Nat
  needed : List Nat
  processed : List Nat
deriving DecidableEq, Repr

/-- The `loop` of `reconstruct_type_by_type_index_internal`, fuel-indexed:
take the last element of the ascending difference `needed − processed`
(i.e. its numerically greatest element); if none remains, stop; otherwise
`Data::add` it (appending its text and merging its references) and insert
it into `processed_types`.  `none` is returned only on fuel exhaustion;
the termination theorem shows sufficient fuel always exists. -/
def depLoop (rm : RenderMap) :
    Nat → List Nat → List Nat → String → List Nat →
    Option (Except String LoopResult)
  | 0, _, _, _, _ => none
  | fuel + 1, needed, processed, buf, order =>
    match (tsDiff needed processed).getLast? with
    | none => some (.ok ⟨buf, order, needed, processed⟩)
    | some needed_type_index =>
      match dataAdd rm buf needed_type_index needed with
      | .error e => some (.error e)
      | .ok (buf2, needed2) =>
        depLoop rm fuel needed2 (tsInsert processed needed_type_index) buf2
          (order ++ [needed_type_index])

/-- A fuel bound sufficient for `depLoop`: one more than the number of
distinct indices that can ever appear in `needed_types` (the seed plus
every index referenced by any record of the container). -/
def allRefs (rm : RenderMap) : List Nat :=
  ((rm : List (Nat × RenderEntry)).map (fun p => p.2.refs)).flatten

/-- `reconstruct_type_by_type_index_internal`, fuel-indexed.  The requested
type is rendered first into its own buffer, seeding `needed_types`; if
dependencies are not requested the rendered text is returned as is;
otherwise the dependency loop runs with `processed_types = {type_index}`
and the dependency buffer is prepended to the rendered text. -/
def reconstructInternalFuel (rm : RenderMap) (fuel : Nat) (type_index : Nat)
    (reconstruct_dependencies : Bool) : Option (Except String String) :=
  match dataAdd rm "" type_index [] with
  | .error e => some (.error e)
  | .ok (type_text, needed_types) =>
    if !reconstruct_dependencies then some (.ok type_text)
    else
      match depLoop rm fuel needed_types (tsInsert [] type_index) "" [] with
      | none => none
      | some (.error e) => some (.error e)
      | some (.ok r) => some (.ok (r.buf ++ type_text))

/-- The fuel `reconstruct_type_by_type_index_internal` is run with: strictly
more than every index set the loop can build. -/
def reconstructFuel (rm : RenderMap) (type_index : Nat) : Nat :=
  (tsMerge (tsInsert [] type_index) (allRefs rm)).length + 1

/-- `reconstruct_type_by_type_index_internal`.  The fuel-exhaustion branch
is dead code (see the termination theorem); it is mapped to an error value
never produced otherwise. -/
def reconstruct_type_by_type_index_internal (rm : RenderMap)
    (type_index : Nat) (reconstruct_dependencies : Bool) :
    Except String String :=
  match reconstructInternalFuel rm (reconstructFuel rm type_index) type_index
      reconstruct_dependencies with
  | none => .error "fuel exhausted"
  | some r => r

/-- `reconstruct_type_by_type_index`: builds the type finder (our
`RenderMap` stands in for it) and delegates to the internal routine. -/
def reconstruct_type_by_type_index (rm : RenderMap) (type_index : Nat)
    (reconstruct_dependencies : Bool) : Except String String :=
  reconstruct_type_by_type_index_internal rm type_index
    reconstruct_dependencies

/-! ## The name-based entry point -/

/-- Whether one stream record makes `reconstruct_type_by_name` update its
candidate index: the record decodes to a class/union/enumeration, its
forward-reference bit is clear, and the searched string equals its raw
decoded name or its unique name. -/
def nameMatches (type_name : String) (si : StreamItem) : Bool :=
  match recOf si with
  | none => false
  | some (_, d) =>
    if d.forward_reference then false
    else d.name == type_name || d.unique_name == some type_name

/-- The name-lookup pass of `reconstruct_type_by_name`: fold over the
stream, overwriting the candidate index (initially
`pdb::TypeIndex::default()`, i.e. 0) on every match; a fatal iterator step
aborts. -/
def namePass : List StreamItem → String → Nat → Except String Nat
  | [], _, acc => .ok acc
  | .fatal :: _, _, _ => .error "io error"
  | .item it :: rest, type_name, acc =>
    namePass rest type_name
      (if nameMatches type_name (.item it) then it.index else acc)

/-- `reconstruct_type_by_name`: one pass over the stream to find the index
matching the name, then delegation to the index-based reconstruction; if
the candidate index is still the default (0), fail with "type not found". -/
def reconstruct_type_by_name (stream : List StreamItem) (rm : RenderMap)
    (type_name : String) (reconstruct_dependencies : Bool) :
    Except String String :=
  match namePass stream type_name 0 with
  | .error e => .error e
  | .ok type_index =>
    if type_index = 0 then .error "type not found"
    else
      reconstruct_type_by_type_index_internal rm type_index
        reconstruct_dependencies

/-! ## Generic list lemmas -/

theorem find?_eq_head?_filter {α : Type} (p : α → Bool) (l : List α) :
    l.find? p = (l.filter p).head? := by
  induction l with
  | nil => rfl
  | cons a l ih =>
    by_cases h : p a
    · rw [List.find?_cons_of_pos _ h, List.filter_cons_of_pos h, List.head?_cons]
    · rw [List.find?_cons_of_neg _ (by simpa using h),
        List.filter_cons_of_neg (by simpa using h), ih]

theorem getLast?_cons_getD {α : Type} (x a : α) :
    ∀ l : List α, ((x :: l).getLast?).getD a = (l.getLast?).getD x
  | [] => rfl
  | y :: ys => by
    rw [List.getLast?_cons_cons, getLast?_cons_getD y a ys, getLast?_cons_getD y x ys]

theorem mem_of_getLast?' {α : Type} :
    ∀ {l : List α} {a : α}, l.getLast? = some a → a ∈ l := by
  intro l
  induction l with
  | nil => intro a h; simp at h
  | cons y rest ih =>
    intro a h
    cases rest with
    | nil => simp [List.getLast?] at h; simp [h]
    | cons z zs =>
      rw [List.getLast?_cons_cons] at h
      exact List.mem_cons_of_mem _ (ih h)

theorem pair_eq_of_nodup_keys {α β : Type} :
    ∀ {l : List (α × β)}, (l.map Prod.fst).Nodup →
      ∀ {a : α} {b c : β}, (a, b) ∈ l → (a, c) ∈ l → b = c := by
  intro l
  induction l with
  | nil => intro _ a b c h1; simp at h1
  | cons q rest ih =>
    intro hnd a b c h1 h2
    rw [List.map_cons, List.nodup_cons] at hnd
    rcases List.mem_cons.mp h1 with h1' | h1 <;>
      rcases List.mem_cons.mp h2 with h2' | h2
    · exact congrArg Prod.snd (h1'.trans h2'.symm)
    · exact absurd (List.mem_map.mpr ⟨(a, c), h2, by rw [← h1']⟩) hnd.1
    · exact absurd (List.mem_map.mpr ⟨(a, b), h1, by rw [← h2']⟩) hnd.1
    · exact ih hnd.2 h1 h2

/-! ## `TypeSet` lemmas -/

theorem tsInsert_mem (s : List Nat) (x a : Nat) :
    a ∈ tsInsert s x ↔ a = x ∨ a ∈ s := by
  induction s with
  | nil => simp [tsInsert]
  | cons y rest ih =>
    unfold tsInsert
    by_cases h1 : x < y
    · simp [h1]
    · by_cases h2 : x = y
      · subst h2; simp [h1]
      · simp [h1, h2, ih]; tauto

theorem tsInsert_sorted {s : List Nat} (hs : s.Sorted (· < ·)) (x : Nat) :
    (tsInsert s x).Sorted (· < ·) := by
  induction s with
  | nil => simp [tsInsert]
  | cons y rest ih =>
    rw [List.sorted_cons] at hs
    unfold tsInsert
    by_cases h1 : x < y
    · rw [if_pos h1, List.sorted_cons]
      refine ⟨fun b hb => ?_, List.sorted_cons.mpr hs⟩
      rcases List.mem_cons.mp hb with rfl | hb
      · exact h1
      · exact h1.trans (hs.1 b hb)
    · rw [if_neg h1]
      by_cases h2 : x = y
      · rw [if_pos h2, List.sorted_cons]; exact hs
      · rw [if_neg h2, List.sorted_cons]
        have hyx : y < x :=
          Nat.lt_of_le_of_ne (Nat.le_of_not_lt h1) (fun he => h2 he.symm)
        refine ⟨fun b hb => ?_, ih hs.2⟩
        rcases (tsInsert_mem rest x b).mp hb with rfl | hb
        · exact hyx
        · exact hs.1 b hb

theorem tsMerge_mem (xs : List Nat) :
    ∀ (s : List Nat) (a : Nat), a ∈ tsMerge s xs ↔ a ∈ s ∨ a ∈ xs := by
  induction xs with
  | nil => simp [tsMerge]
  | cons x xs ih =>
    intro s a
    have : tsMerge s (x :: xs) = tsMerge (tsInsert s x) xs := rfl
    rw [this, ih, tsInsert_mem]
    simp; tauto

theorem tsMerge_sorted (xs : List Nat) :
    ∀ {s : List Nat}, s.Sorted (· < ·) → (tsMerge s xs).Sorted (· < ·) := by
  induction xs with
  | nil => intro s hs; exact hs
  | cons x xs ih => intro s hs; exact ih (tsInsert_sorted hs x)

theorem tsDiff_mem (s t : List Nat) (a : Nat) :
    a ∈ tsDiff s t ↔ a ∈ s ∧ a ∉ t := by
  simp [tsDiff, List.mem_filter]

theorem tsDiff_sorted {s : List Nat} (t : List Nat) (hs : s.Sorted (· < ·)) :
    (tsDiff s t).Sorted (· < ·) :=
  List.Pairwise.sublist (List.filter_sublist _) hs

theorem sorted_getLast?_ge :
    ∀ {l : List Nat}, l.Sorted (· < ·) → ∀ {m : Nat}, l.getLast? = some m →
      ∀ x ∈ l, x ≤ m := by
  intro l
  induction l with
  | nil => intro _ m h; simp at h
  | cons y rest ih =>
    intro hs m h x hx
    rw [List.sorted_cons] at hs
    cases rest with
    | nil =>
      simp [List.getLast?] at h
      subst h
      have hxy : x = y := by simpa using hx
      exact Nat.le_of_eq hxy
    | cons z zs =>
      rw [List.getLast?_cons_cons] at h
      rcases List.mem_cons.mp hx with rfl | hx
      · have hm : m ∈ z :: zs := mem_of_getLast?' h
        exact Nat.le_of_lt (hs.1 m hm)
      · exact ih hs.2 h x hx

/-! ## Loader lemmas -/

/-- The state produced by the single loading pass: the initial state with
the name bindings, pending forwarders and complete-type entries of the
stream's tag records appended in stream order. -/
theorem loadPass_eq (stream : List StreamItem) :
    ∀ st0 : LoadState, noFatal stream →
      loadPass stream st0 = .ok
        { complete_symbol_map := st0.complete_symbol_map ++
            (completeRecords stream).map (fun p => (p.2.name, p.1)),
          forwarders := st0.forwarders ++
            (fwdRecords stream).map (fun p => (p.2.name, p.1)),
          complete_type_list := st0.complete_type_list ++
            (completeRecords stream).map
              (fun p => (displayName p.2.name p.1, p.1)) } := by
  induction stream with
  | nil =>
    intro st0 _
    simp [loadPass, completeRecords, fwdRecords, tagRecords]
  | cons si rest ih =>
    intro st0 h
    cases si with
    | fatal => exact absurd (List.mem_cons_self _ _) h
    | item it =>
      have h' : noFatal rest := fun hm => h (List.mem_cons_of_mem _ hm)
      have hstep : loadPass (.item it :: rest) st0 =
          loadPass rest (processItem st0 it) := rfl
      rw [hstep, ih _ h']
      rcases hrec : recOf (.item it) with _ | ⟨i, d⟩
      · simp [processItem, hrec, completeRecords, fwdRecords, tagRecords,
          List.filterMap_cons, hrec]
      · by_cases hf : d.forward_reference
        · simp [processItem, hrec, handleTag, hf, completeRecords,
            fwdRecords, tagRecords, List.filterMap_cons, List.filter_cons]
        · simp [processItem, hrec, handleTag, hf, completeRecords,
            fwdRecords, tagRecords, mapInsert, List.filterMap_cons,
            List.filter_cons]

/-- The single pass aborts only on a fatal iterator error. -/
theorem loadPass_ok_noFatal :
    ∀ (stream : List StreamItem) (st0 st : LoadState),
      loadPass stream st0 = .ok st → noFatal stream := by
  intro stream
  induction stream with
  | nil => intro _ _ _; simp [noFatal]
  | cons si rest ih =>
    intro st0 st h
    cases si with
    | fatal => simp [loadPass] at h
    | item it =>
      have h' : noFatal rest := ih _ _ h
      intro hm
      rcases List.mem_cons.mp hm with he | hm
      · exact StreamItem.noConfusion he
      · exact h' hm

/-- `resolveForwarders` as a `filterMap`: one entry per pending forwarder
whose raw name resolves in the name map. -/
theorem resolveForwarders_eq (csm : List (String × Nat))
    (fwds : List (String × Nat)) :
    resolveForwarders csm fwds =
      fwds.filterMap
        (fun p => (mapGet csm p.1).map (fun ci => (p.2, ci))) := by
  have haux : ∀ (l : List (String × Nat)) (acc : List (Nat × Nat)),
      l.foldl
        (fun acc p =>
          match mapGet csm p.1 with
          | some ci => acc ++ [(p.2, ci)]
          | none => acc) acc =
      acc ++ l.filterMap
        (fun p => (mapGet csm p.1).map (fun ci => (p.2, ci))) := by
    intro l
    induction l with
    | nil => intro acc; simp
    | cons p rest ihl =>
      intro acc
      rcases hg : mapGet csm p.1 with _ | ci <;>
        simp [List.foldl_cons, List.filterMap_cons, hg, ihl]
  simpa using haux fwds []

/-- A successful `mapGet` returns the most recent binding of the key. -/
theorem mapGet_eq (m : List (String × Nat)) (k : String) :
    mapGet m k =
      ((m.filter (fun p => p.1 == k)).getLast?).map (fun p => p.2) := by
  unfold mapGet
  rw [find?_eq_head?_filter, List.filter_reverse, List.head?_reverse]

/-- A successful `mapGet` returns an existing binding of the key. -/
theorem mapGet_mem {m : List (String × Nat)} {k : String} {v : Nat}
    (h : mapGet m k = some v) : (k, v) ∈ m := by
  rw [mapGet_eq] at h
  rcases Option.map_eq_some'.mp h with ⟨p, hp, hv⟩
  have hmem := mem_of_getLast?' hp
  rcases List.mem_filter.mp hmem with ⟨hpm, hpk⟩
  have hk : p.1 = k := by simpa using hpk
  have : p = (k, v) := Prod.ext hk hv
  rwa [this] at hpm

/-- `mapGet` over the name bindings of a record list finds the last record
carrying the key as its name. -/
theorem mapGet_map_eq (l : List (Nat × TagData)) (nm : String) :
    mapGet (l.map (fun q => (q.2.name, q.1))) nm =
      ((l.filter (fun q => q.2.name == nm)).getLast?).map (fun q => q.1) := by
  rw [mapGet_eq, List.filter_map (fun q : Nat × TagData => (q.2.name, q.1)) l,
    List.getLast?_map, Option.map_map]
  rfl

/-- Closed form of `load_symbols` on a stream without fatal errors. -/
theorem load_symbols_eq (stream : List StreamItem) (h : noFatal stream) :
    load_symbols stream = .ok
      ⟨(completeRecords stream).map (fun p => (displayName p.2.name p.1, p.1)),
        resolveForwarders
          ((completeRecords stream).map (fun p => (p.2.name, p.1)))
          ((fwdRecords stream).map (fun p => (p.2.name, p.1)))⟩ := by
  unfold load_symbols
  rw [loadPass_eq stream ⟨[], [], []⟩ h]
  simp [Except.map]

/-- A successful `load_symbols` implies the stream had no fatal error. -/
theorem load_symbols_ok_noFatal {stream : List StreamItem} {lf : LoadedFile}
    (h : load_symbols stream = .ok lf) : noFatal stream := by
  unfold load_symbols at h
  rcases hp : loadPass stream ⟨[], [], []⟩ with e | st
  · rw [hp] at h; simp [Except.map] at h
  · exact loadPass_ok_noFatal stream _ _ hp

/-- Keep the stream elements that are not individual decode failures. -/
def decodeOk : StreamItem → Bool
  | .fatal => true
  | .item it => it.decoded.isSome

/-- Records that fail to decode contribute nothing to the tag records. -/
theorem tagRecords_filter_decodeOk (stream : List StreamItem) :
    tagRecords (stream.filter decodeOk) = tagRecords stream := by
  induction stream with
  | nil => rfl
  | cons si rest ih =>
    cases si with
    | fatal =>
      simp only [List.filter_cons, tagRecords, List.filterMap_cons] at *
      simpa [decodeOk, recOf] using ih
    | item it =>
      rcases hd : it.decoded with _ | td
      · have : decodeOk (.item it) = false := by simp [decodeOk, hd]
        rw [List.filter_cons_of_neg (by simp [this])]
        have hrec : recOf (.item it) = none := by simp [recOf, hd]
        simp only [tagRecords, List.filterMap_cons, hrec]
        exact ih
      · have : decodeOk (.item it) = true := by simp [decodeOk, hd]
        rw [List.filter_cons_of_pos this]
        simp only [tagRecords, List.filterMap_cons]
        rw [show tagRecords rest = (rest.filterMap recOf) from rfl] at ih
        rw [show tagRecords (rest.filter decodeOk) =
          ((rest.filter decodeOk).filterMap recOf) from rfl] at ih
        rw [ih]

/-! ## Dependency-loop lemmas -/

/-- Indices referenced by any rendered entry are among `allRefs`. -/
theorem render_refs_subset {rm : RenderMap} {i : Nat} {e : RenderEntry}
    (h : render rm i = some e) : ∀ x ∈ e.refs, x ∈ allRefs rm := by
  intro x hx
  unfold render at h
  rcases Option.map_eq_some'.mp h with ⟨p, hp, he⟩
  have hmem := List.mem_of_find?_eq_some hp
  unfold allRefs
  exact List.mem_flatten.mpr ⟨e.refs, List.mem_map.mpr ⟨p, hmem, by rw [he]⟩, hx⟩

/-- Sufficient fuel: the dependency loop does not exhaust its fuel as long
as the fuel exceeds the number of candidate indices not yet processed. -/
theorem depLoop_some (rm : RenderMap) (U : Finset Nat)
    (hU : ∀ i e, render rm i = some e → ∀ x ∈ e.refs, x ∈ U) :
    ∀ (fuel : Nat) (needed processed : List Nat) (buf : String)
      (order : List Nat),
      (∀ x ∈ needed, x ∈ U) →
      (U \ processed.toFinset).card < fuel →
      depLoop rm fuel needed processed buf order ≠ none := by
  intro fuel
  induction fuel with
  | zero => intro _ _ _ _ _ hcard; omega
  | succ fuel ih =>
    intro needed processed buf order hneed hcard
    rw [depLoop]
    rcases hlast : (tsDiff needed processed).getLast? with _ | t
    · simp
    · have ht := (tsDiff_mem needed processed t).mp (mem_of_getLast?' hlast)
      rcases hadd : dataAdd rm buf t needed with e | pr
      · simp [hadd]
      · simp only [hadd]
        rcases pr with ⟨buf2, needed2⟩
        unfold dataAdd at hadd
        rcases hr : render rm t with _ | ent
        · rw [hr] at hadd; exact absurd hadd (by simp)
        · rw [hr] at hadd
          have hb2 : buf2 = buf ++ ent.text ∧ needed2 = tsMerge needed ent.refs := by
            have := hadd
            simp only [Except.ok.injEq] at this
            exact ⟨congrArg Prod.fst this.symm, congrArg Prod.snd this.symm⟩
          apply ih
          · intro x hx
            rw [hb2.2] at hx
            rcases (tsMerge_mem ent.refs needed x).mp hx with hx | hx
            · exact hneed x hx
            · exact hU t ent hr x hx
          · have htU : t ∈ U \ processed.toFinset := by
              rw [Finset.mem_sdiff, List.mem_toFinset]
              exact ⟨hneed t ht.1, ht.2⟩
            have hsub : U \ (tsInsert processed t).toFinset ⊂
                U \ processed.toFinset := by
              constructor
              · intro x hx
                rw [Finset.mem_sdiff, List.mem_toFinset] at hx ⊢
                refine ⟨hx.1, fun hxp => hx.2 ?_⟩
                rw [tsInsert_mem]
                exact Or.inr hxp
              · intro hsup
                have := hsup htU
                rw [Finset.mem_sdiff, List.mem_toFinset, tsInsert_mem] at this
                exact this.2 (Or.inl rfl)
            have := Finset.card_lt_card hsub
            omega

/-- Once the dependency loop finishes within some fuel budget, any larger
budget produces the same outcome. -/
theorem depLoop_mono (rm : RenderMap) :
    ∀ (f1 : Nat) {f2 : Nat} (needed processed : List Nat) (buf : String)
      (order : List Nat) {r : Except String LoopResult},
      f1 ≤ f2 →
      depLoop rm f1 needed processed buf order = some r →
      depLoop rm f2 needed processed buf order = some r := by
  intro f1
  induction f1 with
  | zero =>
    intro f2 needed processed buf order r _ h
    exact absurd h (by simp [depLoop])
  | succ f1 ih =>
    intro f2 needed processed buf order r h12 h
    cases f2 with
    | zero => omega
    | succ f2 =>
      simp only [depLoop] at h ⊢
      rcases hlast : (tsDiff needed processed).getLast? with _ | t
      · simp only [hlast] at h ⊢; exact h
      · simp only [hlast] at h ⊢
        rcases hadd : dataAdd rm buf t needed with e | ⟨buf2, needed2⟩
        · simp only [hadd] at h ⊢; exact h
        · simp only [hadd] at h ⊢
          exact ih _ _ _ _ (by omega) h

/-- Indices already recorded in the processing order stay recorded, and no
index is recorded twice: the dependency sequence of a completed loop is
duplicate-free whenever every already-recorded index is already processed. -/
theorem depLoop_order_nodup (rm : RenderMap) :
    ∀ (fuel : Nat) (needed processed : List Nat) (buf : String)
      (order : List Nat) (r : LoopResult),
      depLoop rm fuel needed processed buf order = some (.ok r) →
      order.Nodup → (∀ x ∈ order, x ∈ processed) →
      r.order.Nodup := by
  intro fuel
  induction fuel with
  | zero => intro _ _ _ _ r h; simp [depLoop] at h
  | succ fuel ih =>
    intro needed processed buf order r h hnd hsub
    simp only [depLoop] at h
    rcases hlast : (tsDiff needed processed).getLast? with _ | t
    · simp only [hlast, Option.some.injEq, Except.ok.injEq] at h
      rw [← h]
      exact hnd
    · simp only [hlast] at h
      rcases hadd : dataAdd rm buf t needed with e | ⟨buf2, needed2⟩
      · simp only [hadd] at h; exact absurd h (by simp)
      · simp only [hadd] at h
        have ht := (tsDiff_mem needed processed t).mp (mem_of_getLast?' hlast)
        have htno : t ∉ order := fun hto => ht.2 (hsub t hto)
        refine ih _ _ _ _ r h ?_ ?_
        · simp [List.nodup_append, hnd]
          exact htno
        · intro x hx
          rcases List.mem_append.mp hx with hx | hx
          · exact (tsInsert_mem processed t x).mpr (Or.inr (hsub x hx))
          · have : x = t := by simpa using hx
            exact (tsInsert_mem processed t x).mpr (Or.inl this)

/-- `reconstruct_type_by_type_index_internal` never exhausts the fuel
budget `reconstructFuel`. -/
theorem reconstructInternalFuel_ne_none (rm : RenderMap) (type_index : Nat)
    (b : Bool) :
    reconstructInternalFuel rm (reconstructFuel rm type_index) type_index b ≠
      none := by
  unfold reconstructInternalFuel
  rcases hadd : dataAdd rm "" type_index [] with e | ⟨tt, needed⟩
  · simp
  · simp only []
    cases b with
    | false => simp
    | true =>
      have hd : depLoop rm (reconstructFuel rm type_index) needed
          (tsInsert [] type_index) "" [] ≠ none := by
        apply depLoop_some rm
          ((tsMerge (tsInsert [] type_index) (allRefs rm)).toFinset)
        · intro i e hr x hx
          rw [List.mem_toFinset, tsMerge_mem]
          exact Or.inr (render_refs_subset hr x hx)
        · intro x hx
          unfold dataAdd at hadd
          rcases hr : render rm type_index with _ | ent
          · rw [hr] at hadd; exact absurd hadd (by simp)
          · rw [hr] at hadd
            have hn : needed = tsMerge [] ent.refs := by
              simp only [Except.ok.injEq] at hadd
              exact congrArg Prod.snd hadd.symm
            rw [hn] at hx
            rcases (tsMerge_mem ent.refs [] x).mp hx with hx | hx
            · simp at hx
            · rw [List.mem_toFinset, tsMerge_mem]
              exact Or.inr (render_refs_subset hr x hx)
        · unfold reconstructFuel
          have h1 :
              ((tsMerge (tsInsert [] type_index) (allRefs rm)).toFinset \
                (tsInsert [] type_index).toFinset).card ≤
              (tsMerge (tsInsert [] type_index) (allRefs rm)).toFinset.card :=
            Finset.card_le_card (Finset.sdiff_subset)
          have h2 :=
            (tsMerge (tsInsert [] type_index) (allRefs rm)).toFinset_card_le
          omega
      rcases hdl : depLoop rm (reconstructFuel rm type_index) needed
          (tsInsert [] type_index) "" [] with _ | r
      · exact absurd hdl hd
      · rcases r with e | r <;> simp [hdl]

/-- Once the internal reconstruction succeeds within some fuel budget, any
larger budget produces the same outcome. -/
theorem reconstructInternalFuel_mono (rm : RenderMap) (type_index : Nat)
    (b : Bool) {f1 f2 : Nat} (h12 : f1 ≤ f2) {r : Except String String}
    (h : reconstructInternalFuel rm f1 type_index b = some r) :
    reconstructInternalFuel rm f2 type_index b = some r := by
  unfold reconstructInternalFuel at h ⊢
  rcases hadd : dataAdd rm "" type_index [] with e | ⟨tt, needed⟩ <;>
    simp only [hadd] at h ⊢
  · exact h
  · cases b with
    | false => exact h
    | true =>
      rcases hdl : depLoop rm f1 needed (tsInsert [] type_index) "" []
          with _ | r'
      · simp [hdl] at h
      · simp only [Bool.not_true] at h ⊢
        rw [if_neg (by simp)] at h ⊢
        simp only [hdl] at h
        rw [depLoop_mono rm f1 _ _ _ _ h12 hdl]
        exact h

/-! ## Name-pass lemmas -/

/-- The `TypeIndex` a stream element contributes to the name pass. -/
def streamIndex : StreamItem → Option Nat
  | .fatal => none
  | .item it => some it.index

/-- The index the name pass of `reconstruct_type_by_name` ends on: the
index of the last matching record of the stream, if any. -/
def lastMatch (stream : List StreamItem) (type_name : String) : Option Nat :=
  ((stream.filter (nameMatches type_name)).filterMap streamIndex).getLast?

/-- `recOf` reports the record's own index. -/
theorem recOf_item_index {it : TypeItem} {j : Nat} {d : TagData}
    (h : recOf (.item it) = some (j, d)) : j = it.index := by
  rcases hd : it.decoded with _ | td
  · simp [recOf, hd] at h
  · cases td <;> simp [recOf, hd] at h
    · exact h.1.symm
    · exact h.1.symm
    · exact h.1.symm

/-- A matching record is a complete class/union/enumeration record whose
raw name or unique name equals the searched string. -/
theorem nameMatches_item {type_name : String} {si : StreamItem}
    (h : nameMatches type_name si = true) :
    ∃ j d, recOf si = some (j, d) ∧ d.forward_reference = false ∧
      (d.name = type_name ∨ d.unique_name = some type_name) := by
  unfold nameMatches at h
  rcases hrec : recOf si with _ | ⟨j, d⟩ <;> rw [hrec] at h
  · simp at h
  · by_cases hf : d.forward_reference = true
    · simp [hf] at h
    · simp [hf] at h
      refine ⟨j, d, rfl, by simpa using hf, ?_⟩
      simpa using h

/-- The name pass, in closed form: it returns the last matching record's
index, or the initial candidate when nothing matches. -/
theorem namePass_eq :
    ∀ (stream : List StreamItem) (type_name : String) (acc : Nat),
      noFatal stream →
      namePass stream type_name acc =
        .ok ((lastMatch stream type_name).getD acc) := by
  intro stream
  induction stream with
  | nil => intro _ acc _; rfl
  | cons si rest ih =>
    intro type_name acc h
    cases si with
    | fatal => exact absurd (List.mem_cons_self _ _) h
    | item it =>
      have h' : noFatal rest := fun hm => h (List.mem_cons_of_mem _ hm)
      have hstep : namePass (.item it :: rest) type_name acc =
          namePass rest type_name
            (if nameMatches type_name (.item it) then it.index else acc) := rfl
      rw [hstep]
      by_cases hm : nameMatches type_name (.item it)
      · rw [if_pos hm, ih type_name it.index h']
        have hl : lastMatch (.item it :: rest) type_name =
            (it.index ::
              ((rest.filter (nameMatches type_name)).filterMap streamIndex)
              ).getLast? := by
          unfold lastMatch
          rw [List.filter_cons_of_pos hm]
          rfl
        rw [hl, show ∀ o : Option Nat, ∀ a : Nat, o.getD a = (o).getD a from
          fun _ _ => rfl]
        rw [getLast?_cons_getD]
        rfl
      · rw [if_neg hm]
        rw [ih type_name acc h']
        have hl : lastMatch (.item it :: rest) type_name =
            lastMatch rest type_name := by
          unfold lastMatch
          rw [List.filter_cons_of_neg (by simpa using hm)]
        rw [hl]

/-- The name pass ends on the default index exactly when nothing in the
stream matches. -/
theorem lastMatch_eq_none_iff (stream : List StreamItem) (type_name : String) :
    lastMatch stream type_name = none ↔
      ∀ si ∈ stream, nameMatches type_name si = false := by
  unfold lastMatch
  rw [List.getLast?_eq_none_iff]
  constructor
  · intro h si hsi
    cases hb : nameMatches type_name si
    · rfl
    · exfalso
      have hsif : si ∈ stream.filter (nameMatches type_name) :=
        List.mem_filter.mpr ⟨hsi, hb⟩
      cases si with
      | fatal => simp [nameMatches, recOf] at hb
      | item it =>
        have hmem : it.index ∈
            (stream.filter (nameMatches type_name)).filterMap streamIndex :=
          List.mem_filterMap.mpr ⟨.item it, hsif, rfl⟩
        rw [h] at hmem
        simp at hmem
  · intro h
    have hnil : stream.filter (nameMatches type_name) = [] := by
      rw [List.filter_eq_nil_iff]
      intro si hsi
      simp [h si hsi]
    rw [hnil]
    rfl

/-- A successful name pass ends on the index of a complete matching
class/union/enumeration record of the stream. -/
theorem lastMatch_mem_tagRecords {stream : List StreamItem}
    {type_name : String} {i : Nat} (h : lastMatch stream type_name = some i) :
    ∃ d, (i, d) ∈ tagRecords stream ∧ d.forward_reference = false ∧
      (d.name = type_name ∨ d.unique_name = some type_name) := by
  unfold lastMatch at h
  have hmem := mem_of_getLast?' h
  rcases List.mem_filterMap.mp hmem with ⟨si, hsi, hidx⟩
  rcases List.mem_filter.mp hsi with ⟨hsm, hmatch⟩
  rcases nameMatches_item hmatch with ⟨j, d, hrec, hf, hname⟩
  cases si with
  | fatal => simp [streamIndex] at hidx
  | item it =>
    have hit : it.index = i := by simpa [streamIndex] using hidx
    have hj : j = it.index := recOf_item_index hrec
    refine ⟨d, ?_, hf, hname⟩
    have : (j, d) ∈ tagRecords stream :=
      List.mem_filterMap.mpr ⟨.item it, hsm, hrec⟩
    rwa [hj, hit] at this

/-! ## Claim theorems -/

/-- A three-type container whose types reference one another, used to
exercise the reconstruction claims on concrete data. -/
def rmSample : RenderMap :=
  [(1, ⟨"T1;", [2, 3]⟩), (2, ⟨"T2;", [3, 1]⟩), (3, ⟨"T3;", []⟩)]

/-- The per-iteration contract of the dependency-closure loop: when
`needed − processed` is empty the loop stops, returning the accumulated
state; otherwise the selected index is the numerically greatest element of
`needed − processed`, its rendered text is appended to the dependency
buffer, its referenced indices are merged into `needed`, and it is added to
`processed` before the loop continues. -/
def depLoopStepSpec (rm : RenderMap) (fuel : Nat) (needed processed : List Nat)
    (buf : String) (order : List Nat) : Prop :=
  (tsDiff needed processed = [] →
      depLoop rm (fuel + 1) needed processed buf order =
        some (.ok ⟨buf, order, needed, processed⟩)) ∧
  ∀ t, (tsDiff needed processed).getLast? = some t →
    (t ∈ needed ∧ t ∉ processed ∧ ∀ x ∈ needed, x ∉ processed → x ≤ t) ∧
    depLoop rm (fuel + 1) needed processed buf order =
      (match render rm t with
       | none => some (.error "render error")
       | some e =>
         depLoop rm fuel (tsMerge needed e.refs) (tsInsert processed t)
           (buf ++ e.text) (order ++ [t]))

/-- **C1**: each iteration of the dependency-closure loop of
`reconstruct_type_by_type_index_internal` selects exactly the numerically
greatest `TypeIndex` in `needed − processed` (the `difference(..).last()`
of the ascending `BTreeSet` iterator), renders it appending to the
dependency buffer, merges its referenced indices into the needed set, adds
it to the processed set, and the loop stops exactly when
`needed − processed` is empty. -/
theorem C1_dependency_loop_iteration (rm : RenderMap) (fuel : Nat)
    (needed processed : List Nat) (buf : String) (order : List Nat)
    (hs : needed.Sorted (· < ·)) :
    depLoopStepSpec rm fuel needed processed buf order := by
  constructor
  · intro hdiff
    simp [depLoop, hdiff]
  · intro t hlast
    have ht := (tsDiff_mem needed processed t).mp (mem_of_getLast?' hlast)
    have hmax : ∀ x ∈ needed, x ∉ processed → x ≤ t := by
      intro x hx hxp
      exact sorted_getLast?_ge (tsDiff_sorted processed hs) hlast x
        ((tsDiff_mem needed processed x).mpr ⟨hx, hxp⟩)
    refine ⟨⟨ht.1, ht.2, hmax⟩, ?_⟩
    simp only [depLoop, hlast]
    unfold dataAdd
    rcases hr : render rm t with _ | e <;> simp [hr]

/-- Witness for C1 on the sample container: `needed = {2, 3}`,
`processed = {1}`. -/
theorem C1_witness :
    ([2, 3] : List Nat).Sorted (· < ·) ∧
      depLoopStepSpec rmSample 0 [2, 3] [1] "" [] :=
  ⟨by decide,
    C1_dependency_loop_iteration rmSample 0 [2, 3] [1] "" [] (by decide)⟩

/-- **C2**: for every finite container and every resolvable starting index,
`reconstruct(idx, true)` terminates (the fuel budget `reconstructFuel` —
one more than the number of candidate indices — is never exhausted, because
the processed set strictly grows each iteration), and the dependency loop
renders each reachable index at most once (its processing order is
duplicate-free). -/
theorem C2_closure_terminates_each_once (rm : RenderMap) (type_index : Nat)
    (e : RenderEntry) (h : render rm type_index = some e) :
    reconstructInternalFuel rm (reconstructFuel rm type_index) type_index
        true ≠ none ∧
    ∀ fuel r,
      depLoop rm fuel (tsMerge [] e.refs) (tsInsert [] type_index) "" [] =
        some (.ok r) →
      r.order.Nodup := by
  refine ⟨reconstructInternalFuel_ne_none rm type_index true, ?_⟩
  intro fuel r hr
  exact depLoop_order_nodup rm fuel _ _ _ _ r hr List.nodup_nil
    (by intro x hx; simp at hx)

/-- Witness for C2: index 1 of the sample container is resolvable and its
closure reconstruction terminates. -/
theorem C2_witness :
    render rmSample 1 = some ⟨"T1;", [2, 3]⟩ ∧
      reconstructInternalFuel rmSample (reconstructFuel rmSample 1) 1 true ≠
        none :=
  ⟨rfl, (C2_closure_terminates_each_once rmSample 1 ⟨"T1;", [2, 3]⟩ rfl).1⟩

/-- A container whose only type references an unresolvable index. -/
def rmDangling : RenderMap := [(1, ⟨"T1;", [2]⟩)]

/-- **C3 counterexample**: index 1 of `rmDangling` is resolvable, yet
`reconstruct(1, true)` does not return a dependency buffer followed by the
standalone text — it fails with a render error, because the dependency loop
propagates the failure of rendering the dangling referenced index 2.  This
refutes C3's universal "returns" for the `include_dependencies = true`
case. -/
theorem C3_counterexample :
    render rmDangling 1 = some ⟨"T1;", [2]⟩ ∧
      reconstruct_type_by_type_index rmDangling 1 true =
        .error "render error" :=
  ⟨rfl, rfl⟩

/-- **C3 amended**: for every resolvable index, `reconstruct(idx, false)`
returns exactly the standalone rendered text with no dependency text, and
whenever `reconstruct(idx, true)` returns successfully its output is the
dependency buffer immediately followed by that same standalone text (if a
transitively referenced index is unresolvable it returns a render error
instead). -/
theorem C3_amended_output_shape (rm : RenderMap) (type_index : Nat)
    (e : RenderEntry) (h : render rm type_index = some e) :
    reconstruct_type_by_type_index rm type_index false = .ok e.text ∧
    ∀ s, reconstruct_type_by_type_index rm type_index true = .ok s →
      ∃ deps, s = deps ++ e.text := by
  have hadd : dataAdd rm "" type_index [] =
      .ok ("" ++ e.text, tsMerge [] e.refs) := by
    unfold dataAdd; rw [h]
  have hempty : "" ++ e.text = e.text := by simp
  constructor
  · show reconstruct_type_by_type_index_internal rm type_index false =
      .ok e.text
    unfold reconstruct_type_by_type_index_internal reconstructInternalFuel
    rw [hadd]
    simp [hempty]
  · intro s hs
    unfold reconstruct_type_by_type_index
      reconstruct_type_by_type_index_internal reconstructInternalFuel at hs
    rw [hadd] at hs
    rcases hdl : depLoop rm (reconstructFuel rm type_index)
        (tsMerge [] e.refs) (tsInsert [] type_index) "" [] with _ | r
    · simp [hdl] at hs
    · rcases r with err | r
      · simp [hdl] at hs
      · simp [hdl, hempty] at hs
        exact ⟨r.buf, hs.symm⟩

/-- Witness for C3 (amended) at index 1 of the sample container. -/
theorem C3_witness :
    render rmSample 1 = some ⟨"T1;", [2, 3]⟩ ∧
      reconstruct_type_by_type_index rmSample 1 false = .ok "T1;" :=
  ⟨rfl, (C3_amended_output_shape rmSample 1 ⟨"T1;", [2, 3]⟩ rfl).1⟩

/-- A sample type stream: an anonymous complete class at index 5, a
forward-declared `Foo` at 7 completed at 8 and again at 10, a record whose
decode fails at 9, and an unmatched forwarder `Gone` at 11. -/
def streamSample : List StreamItem :=
  [.item ⟨5, some (.Class ⟨"<unnamed-tag>", none, false⟩)⟩,
   .item ⟨7, some (.Class ⟨"Foo", some "?Foo@", true⟩)⟩,
   .item ⟨8, some (.Class ⟨"Foo", none, false⟩)⟩,
   .item ⟨9, none⟩,
   .item ⟨10, some (.Class ⟨"Foo", none, false⟩)⟩,
   .item ⟨11, some (.Union ⟨"Gone", none, true⟩)⟩]

/-- The value `load_symbols` produces on `streamSample`. -/
def lfSample : LoadedFile :=
  ⟨[("_unnamed_5", 5), ("Foo", 8), ("Foo", 10)], [(7, 10)]⟩

/-- The invariant of the forwarder-to-complete-type map: every key is the
index of a class/union/enumeration record whose forward-reference flag is
set, every value is the index of a complete such record, and every value is
present in the complete-type list. -/
def C4Spec (stream : List StreamItem) (lf : LoadedFile) : Prop :=
  ∀ p ∈ lf.forwarder_to_complete_type,
    (∃ d, (p.1, d) ∈ tagRecords stream ∧ d.forward_reference = true) ∧
    (∃ d, (p.2, d) ∈ tagRecords stream ∧ d.forward_reference = false) ∧
    ∃ nm, (nm, p.2) ∈ lf.complete_type_list

/-- **C4**: for every successfully loaded container, every key of
`forwarder_to_complete_type` is the index of a class/union/enumeration
record with the forward-reference flag set, and every value is the index of
a complete (non-forward-declared) such record present in
`complete_type_list`.  The map is produced once by `load_symbols` and the
embedding's query operations are pure functions of the loaded value, so it
is not modified afterwards. -/
theorem C4_forwarder_map_invariant (stream : List StreamItem)
    (lf : LoadedFile) (h : load_symbols stream = .ok lf) :
    C4Spec stream lf := by
  have hnf := load_symbols_ok_noFatal h
  rw [load_symbols_eq stream hnf] at h
  injection h with h2
  subst h2
  intro p hp
  simp only [resolveForwarders_eq] at hp
  rcases List.mem_filterMap.mp hp with ⟨q, hq, hf⟩
  rcases Option.map_eq_some'.mp hf with ⟨ci, hci, hpe⟩
  rcases List.mem_map.mp hq with ⟨w, hw, hwq⟩
  rcases List.mem_filter.mp hw with ⟨hwt, hwf⟩
  have hmem := mapGet_mem hci
  rcases List.mem_map.mp hmem with ⟨w', hw', hwq'⟩
  rcases List.mem_filter.mp hw' with ⟨hwt', hwf'⟩
  have hp1 : p.1 = w.1 := by
    rw [← hpe]
    show q.2 = w.1
    rw [← hwq]
  have hp2 : p.2 = w'.1 := by
    rw [← hpe]
    show ci = w'.1
    exact (congrArg Prod.snd hwq').symm
  refine ⟨⟨w.2, ?_, hwf⟩, ⟨w'.2, ?_, by simpa using hwf'⟩, ?_⟩
  · rw [hp1]
    simpa using hwt
  · rw [hp2]
    simpa using hwt'
  · refine ⟨displayName w'.2.name w'.1, ?_⟩
    rw [hp2]
    exact List.mem_map.mpr ⟨w', hw', rfl⟩

/-- Witness for C4 on the sample stream: the single forwarder entry
`(7, 10)` satisfies the invariant. -/
theorem C4_witness :
    load_symbols streamSample = .ok lfSample ∧ C4Spec streamSample lfSample :=
  ⟨rfl, C4_forwarder_map_invariant streamSample lfSample rfl⟩

/-- **C5**: a record whose individual decode fails is skipped and the load
continues over the remaining records — on a stream with no fatal iterator
error the load succeeds and its result equals the result on the stream with
the undecodable records removed; the whole load aborts only on a fatal
error (which under `noFatal` cannot happen). -/
theorem C5_decode_failures_skipped (stream : List StreamItem)
    (h : noFatal stream) :
    (∃ lf, load_symbols stream = .ok lf) ∧
    load_symbols stream = load_symbols (stream.filter decodeOk) := by
  have hf : noFatal (stream.filter decodeOk) := fun hm =>
    h (List.mem_of_mem_filter hm)
  constructor
  · exact ⟨_, load_symbols_eq stream h⟩
  · rw [load_symbols_eq stream h, load_symbols_eq _ hf]
    have ht := tagRecords_filter_decodeOk stream
    simp [completeRecords, fwdRecords, ht]

/-- Witness for C5: the sample stream contains an undecodable record at
index 9 and still loads, with the same result as without that record. -/
theorem C5_witness :
    noFatal streamSample ∧
      load_symbols streamSample =
        load_symbols (streamSample.filter decodeOk) :=
  ⟨by decide, (C5_decode_failures_skipped streamSample (by decide)).2⟩

/-- **C6**: after the single loading pass, every pending forwarder whose
raw name has no entry in the complete-type name lookup is omitted from the
forwarder map (its diagnostic log line is outside the model), and this
never causes `load_symbols` (hence `load_from_file`) to return an error.
Distinct records are assumed to carry distinct indices, as the container
format guarantees. -/
theorem C6_unmatched_forwarders_omitted (stream : List StreamItem)
    (h : noFatal stream)
    (hnd : ((tagRecords stream).map Prod.fst).Nodup) :
    ∃ lf, load_symbols stream = .ok lf ∧
      ∀ p ∈ fwdRecords stream,
        mapGet ((completeRecords stream).map (fun q => (q.2.name, q.1)))
          p.2.name = none →
        ∀ v, (p.1, v) ∉ lf.forwarder_to_complete_type := by
  refine ⟨_, load_symbols_eq stream h, ?_⟩
  intro p hp hnone v hv
  simp only [resolveForwarders_eq] at hv
  rcases List.mem_filterMap.mp hv with ⟨q, hq, hf⟩
  rcases Option.map_eq_some'.mp hf with ⟨ci, hci, hpe⟩
  rcases List.mem_map.mp hq with ⟨w, hw, hwq⟩
  rcases List.mem_filter.mp hw with ⟨hwt, hwf⟩
  have hw1 : w.1 = p.1 := by
    have h1 : q.2 = p.1 := congrArg Prod.fst hpe
    rw [← h1, ← hwq]
  have hpt : (p.1, p.2) ∈ tagRecords stream := by
    have hpf := List.mem_filter.mp hp
    simpa using hpf.1
  have hwt2 : (p.1, w.2) ∈ tagRecords stream := by
    have hww : (w.1, w.2) ∈ tagRecords stream := by simpa using hwt
    rwa [hw1] at hww
  have hsame : w.2 = p.2 := pair_eq_of_nodup_keys hnd hwt2 hpt
  have hq1 : q.1 = w.2.name := by rw [← hwq]
  rw [hq1, hsame] at hci
  rw [hnone] at hci
  exact Option.noConfusion hci

/-- Witness for C6: the sample stream's forwarder `Gone` (index 11) has no
complete definition and is omitted while the load still succeeds. -/
theorem C6_witness :
    noFatal streamSample ∧
      ((tagRecords streamSample).map Prod.fst).Nodup ∧
      ∃ lf, load_symbols streamSample = .ok lf ∧
        ∀ p ∈ fwdRecords streamSample,
          mapGet
            ((completeRecords streamSample).map (fun q => (q.2.name, q.1)))
            p.2.name = none →
          ∀ v, (p.1, v) ∉ lf.forwarder_to_complete_type :=
  ⟨by decide, by decide,
    C6_unmatched_forwarders_omitted streamSample (by decide) (by decide)⟩

/-- The dependency loop only ever fails with the renderer's error. -/
theorem depLoop_error_eq (rm : RenderMap) :
    ∀ (fuel : Nat) (needed processed : List Nat) (buf : String)
      (order : List Nat) (e : String),
      depLoop rm fuel needed processed buf order = some (.error e) →
      e = "render error" := by
  intro fuel
  induction fuel with
  | zero => intro _ _ _ _ e h; simp [depLoop] at h
  | succ fuel ih =>
    intro needed processed buf order e h
    simp only [depLoop] at h
    rcases hlast : (tsDiff needed processed).getLast? with _ | t
    · simp [hlast] at h
    · simp only [hlast] at h
      rcases hr : render rm t with _ | ent
      · have hadd : dataAdd rm buf t needed = .error "render error" := by
          unfold dataAdd; rw [hr]
        simp [hadd] at h
        exact h.symm
      · have hadd : dataAdd rm buf t needed =
            .ok (buf ++ ent.text, tsMerge needed ent.refs) := by
          unfold dataAdd; rw [hr]
        simp only [hadd] at h
        exact ih _ _ _ _ _ h

/-- The internal reconstruction only ever fails with the renderer's
error. -/
theorem reconstructInternalFuel_error_eq (rm : RenderMap) (i : Nat)
    (b : Bool) (fuel : Nat) (e : String)
    (h : reconstructInternalFuel rm fuel i b = some (.error e)) :
    e = "render error" := by
  unfold reconstructInternalFuel at h
  rcases hr : render rm i with _ | ent
  · have hadd : dataAdd rm "" i [] = .error "render error" := by
      unfold dataAdd; rw [hr]
    simp [hadd] at h
    exact h.symm
  · have hadd : dataAdd rm "" i [] = .ok ("" ++ ent.text, tsMerge [] ent.refs) := by
      unfold dataAdd; rw [hr]
    simp only [hadd] at h
    cases b with
    | false => simp at h
    | true =>
      rcases hdl : depLoop rm fuel (tsMerge [] ent.refs) (tsInsert [] i) "" []
          with _ | r
      · simp [hdl] at h
      · rcases r with err | r
        · simp [hdl] at h
          rw [← h]
          exact depLoop_error_eq rm fuel _ _ _ _ err hdl
        · simp [hdl] at h

/-- The index-based reconstruction never produces the name lookup's
"type not found" error. -/
theorem reconstructInternal_ne_notfound (rm : RenderMap) (i : Nat)
    (b : Bool) :
    reconstruct_type_by_type_index_internal rm i b ≠
      .error "type not found" := by
  unfold reconstruct_type_by_type_index_internal
  rcases hf : reconstructInternalFuel rm (reconstructFuel rm i) i b
      with _ | r
  · intro hcon
    injection hcon with hs
    exact absurd hs (by decide)
  · rcases r with err | s
    · have herr := reconstructInternalFuel_error_eq rm i b _ err hf
      subst herr
      intro hcon
      injection hcon with hs
      exact absurd hs (by decide)
    · intro hcon
      exact Except.noConfusion hcon

/-- **C7**: `reconstruct_type_by_name` performs a single pass over the
stream; `nameMatches` — the embedded per-record test — accepts exactly the
class/union/enumeration records whose forward-reference flag is clear and
whose raw decoded name or unique name equals the searched string.  The
function returns the "type not found" error iff no record matches by the
end of the pass, and otherwise delegates to the index-based reconstruction
at the last matching index.  Record indices are assumed nonzero, because
the pass's initial candidate is `pdb::TypeIndex::default()` (0), which the
container format never assigns to a record. -/
theorem C7_name_lookup (stream : List StreamItem) (rm : RenderMap)
    (type_name : String) (b : Bool) (h : noFatal stream)
    (hz : ∀ p ∈ tagRecords stream, p.1 ≠ 0) :
    (reconstruct_type_by_name stream rm type_name b =
        .error "type not found" ↔
      ∀ si ∈ stream, nameMatches type_name si = false) ∧
    ∀ i, lastMatch stream type_name = some i →
      reconstruct_type_by_name stream rm type_name b =
        reconstruct_type_by_type_index_internal rm i b := by
  have hnp := namePass_eq stream type_name 0 h
  have hdeleg : ∀ i, lastMatch stream type_name = some i →
      reconstruct_type_by_name stream rm type_name b =
        reconstruct_type_by_type_index_internal rm i b := by
    intro i hlm
    rcases lastMatch_mem_tagRecords hlm with ⟨d, hd, _, _⟩
    have hi0 : i ≠ 0 := hz (i, d) hd
    unfold reconstruct_type_by_name
    rw [hnp, hlm]
    simp [hi0]
  refine ⟨⟨?_, ?_⟩, hdeleg⟩
  · intro he
    rw [← lastMatch_eq_none_iff]
    rcases hlm : lastMatch stream type_name with _ | i
    · rfl
    · exfalso
      rw [hdeleg i hlm] at he
      exact reconstructInternal_ne_notfound rm i b he
  · intro hnone
    unfold reconstruct_type_by_name
    rw [hnp, (lastMatch_eq_none_iff stream type_name).mpr hnone]
    rfl

/-- Witness for C7: searching the sample stream for a name that no record
carries fails with "type not found". -/
theorem C7_witness :
    noFatal streamSample ∧
      (∀ p ∈ tagRecords streamSample, p.1 ≠ 0) ∧
      (reconstruct_type_by_name streamSample rmSample "Bar" false =
          .error "type not found" ↔
        ∀ si ∈ streamSample, nameMatches "Bar" si = false) :=
  ⟨by decide, by decide,
    (C7_name_lookup streamSample rmSample "Bar" false (by decide)
      (by decide)).1⟩

/-- **C8**: reconstruction is idempotent: two calls of
`reconstruct_type_by_type_index` with the same index and dependency flag
against the same loaded, unmodified container (the same render table) yield
identical output.  The embedding is a pure function of the table, so the
only parameter that could differ between the two runs is the internal fuel
budget; any two sufficient budgets produce the same result. -/
theorem C8_reconstruction_idempotent (rm : RenderMap) (type_index : Nat)
    (b : Bool) (f1 f2 : Nat) (h1 : reconstructFuel rm type_index ≤ f1)
    (h2 : reconstructFuel rm type_index ≤ f2) :
    reconstructInternalFuel rm f1 type_index b =
      reconstructInternalFuel rm f2 type_index b := by
  rcases hf : reconstructInternalFuel rm (reconstructFuel rm type_index)
      type_index b with _ | r
  · exact absurd hf (reconstructInternalFuel_ne_none rm type_index b)
  · rw [reconstructInternalFuel_mono rm type_index b h1 hf,
      reconstructInternalFuel_mono rm type_index b h2 hf]

/-- Witness for C8 on the sample container, with two different sufficient
fuel budgets. -/
theorem C8_witness :
    reconstructFuel rmSample 1 ≤ reconstructFuel rmSample 1 ∧
      reconstructInternalFuel rmSample (reconstructFuel rmSample 1) 1 true =
        reconstructInternalFuel rmSample (reconstructFuel rmSample 1 + 1) 1
          true :=
  ⟨Nat.le_refl _,
    C8_reconstruction_idempotent rmSample 1 true _ _ (Nat.le_refl _)
      (Nat.le_succ_of_le (Nat.le_refl _))⟩

/-- **C9**: when two or more complete class/union/enumeration records
decode to the same raw name, the name lookup used for forwarder resolution
retains the record occurring last in the type stream (`DashMap::insert`
overwrites), so every forwarder bearing that name resolves to the
last-occurring complete definition, while the complete-type list still
contains one entry per complete record. -/
theorem C9_duplicate_names_last_wins (stream : List StreamItem)
    (nm : String) (i : Nat) (d : TagData) (h : noFatal stream)
    (hlast : ((completeRecords stream).filter
        (fun q => q.2.name == nm)).getLast? = some (i, d)) :
    ∃ lf, load_symbols stream = .ok lf ∧
      (∀ p ∈ fwdRecords stream, p.2.name = nm →
        (p.1, i) ∈ lf.forwarder_to_complete_type) ∧
      lf.complete_type_list.length = (completeRecords stream).length := by
  refine ⟨_, load_symbols_eq stream h, ?_, by simp⟩
  intro p hp hnm
  simp only [resolveForwarders_eq]
  refine List.mem_filterMap.mpr
    ⟨(p.2.name, p.1), List.mem_map.mpr ⟨p, hp, rfl⟩, ?_⟩
  have hget : mapGet
      ((completeRecords stream).map (fun q => (q.2.name, q.1)))
      p.2.name = some i := by
    rw [mapGet_map_eq, hnm, hlast]
    rfl
  rw [hget]
  rfl

/-- Witness for C9: `Foo` is completed at indices 8 and 10 of the sample
stream and the forwarder at index 7 resolves to the later index 10. -/
theorem C9_witness :
    noFatal streamSample ∧
      ((completeRecords streamSample).filter
          (fun q => q.2.name == "Foo")).getLast? =
        some (10, ⟨"Foo", none, false⟩) ∧
      ∃ lf, load_symbols streamSample = .ok lf ∧
        (∀ p ∈ fwdRecords streamSample, p.2.name = "Foo" →
          (p.1, 10) ∈ lf.forwarder_to_complete_type) ∧
        lf.complete_type_list.length =
          (completeRecords streamSample).length :=
  ⟨by decide, by decide,
    C9_duplicate_names_last_wins streamSample "Foo" 10 ⟨"Foo", none, false⟩
      (by decide) (by decide)⟩

/-- A stream with an anonymous complete class at index 5 (display name
`"_unnamed_5"`) and an unrelated class whose raw decoded name is literally
`"_unnamed_5"` at index 6. -/
def streamCollide : List StreamItem :=
  [.item ⟨5, some (.Class ⟨"<unnamed-tag>", none, false⟩)⟩,
   .item ⟨6, some (.Class ⟨"_unnamed_5", none, false⟩)⟩]

/-- A render table resolving index 6 of `streamCollide`. -/
def rmCollide : RenderMap := [(6, ⟨"U6;", []⟩)]

/-- **C10 counterexample**: the synthetic display name `"_unnamed_5"` of
the anonymous type at index 5 appears in the complete-type list, yet
`reconstruct_type_by_name "_unnamed_5"` does not fail with the
type-not-found error — it matches the raw decoded name of the unrelated
complete record at index 6 and returns that record's reconstruction.  The
claim's "always fails" therefore does not hold when a record's raw name
collides with a synthetic name. -/
theorem C10_counterexample :
    load_symbols streamCollide =
        .ok ⟨[("_unnamed_5", 5), ("_unnamed_5", 6)], []⟩ ∧
      reconstruct_type_by_name streamCollide rmCollide "_unnamed_5" false =
        .ok "U6;" :=
  ⟨rfl, rfl⟩

/-- **C10 amended**: anonymous complete types appear in the complete-type
list under the synthetic display name `"_unnamed_<index>"`, but
`reconstruct_type_by_name` compares the search string only against the
records' raw decoded names and unique names; calling it with such a
synthetic name therefore fails with the type-not-found error whenever no
complete class/union/enumeration record's raw decoded name or unique name
equals that synthetic string. -/
theorem C10_amended_synthetic_name_lookup (stream : List StreamItem)
    (rm : RenderMap) (i : Nat) (b : Bool) (lf : LoadedFile)
    (h : noFatal stream) (hload : load_symbols stream = .ok lf)
    (hsyn : ("_unnamed_" ++ toString i, i) ∈ lf.complete_type_list)
    (hname : ∀ si ∈ stream,
      nameMatches ("_unnamed_" ++ toString i) si = false) :
    reconstruct_type_by_name stream rm ("_unnamed_" ++ toString i) b =
      .error "type not found" := by
  unfold reconstruct_type_by_name
  rw [namePass_eq stream _ 0 h,
    (lastMatch_eq_none_iff stream _).mpr hname]
  rfl

/-- A stream holding just one anonymous complete class at index 5. -/
def streamAnon : List StreamItem :=
  [.item ⟨5, some (.Class ⟨"<unnamed-tag>", none, false⟩)⟩]

/-- The value `load_symbols` produces on `streamAnon`. -/
def lfAnon : LoadedFile := ⟨[("_unnamed_5", 5)], []⟩

/-- Witness for C10 (amended): looking up the synthetic name of the
anonymous type of `streamAnon` fails with "type not found". -/
theorem C10_witness :
    noFatal streamAnon ∧
      load_symbols streamAnon = .ok lfAnon ∧
      ("_unnamed_" ++ toString 5, 5) ∈ lfAnon.complete_type_list ∧
      (∀ si ∈ streamAnon,
        nameMatches ("_unnamed_" ++ toString 5) si = false) ∧
      reconstruct_type_by_name streamAnon rmSample
          ("_unnamed_" ++ toString 5) false = .error "type not found" :=
  ⟨by decide, rfl, by decide, by decide,
    C10_amended_synthetic_name_lookup streamAnon rmSample 5 false lfAnon
      (by decide) rfl (by decide) (by decide)⟩

end Resym
